import Mathlib

/-!
Shallow embedding of the sync-signal decoding and trial-alignment pipeline of
the `datajoint-churchland` repository:

* `churchland_pipeline_python/utilities/datasync.py`:
  `decodesyncsignal` and `ephystrialstart`;
* `datajoint_pacman/pacman_processing.py`: the computational kernel of
  `TrialAlignment.make` (lag search, behavior/ephys alignment indices);
* `datajoint_pacman/pacman_acquisition.py`: `ConditionParams.targetforce`
  for the Static and Ramp target types.

Conventions: machine floats are modelled as exact rationals; Python
exceptions (IndexError, StopIteration, ValueError) are modelled by `Option`
with `none` for "the call raises"; NumPy NaN values (the decoder's corrupted
block times) are modelled as `Option ℚ` with `none` for NaN, and float
comparisons against NaN return `false` as in IEEE arithmetic.
-/

namespace DataSync

/-- Python `round` / `np.round` to an integer: round half to even
(banker's rounding), on exact rationals. -/
def pyRound (q : ℚ) : ℤ :=
  if q - ⌊q⌋ < 1/2 then ⌊q⌋
  else if 1/2 < q - ⌊q⌋ then ⌊q⌋ + 1
  else if 2 ∣ ⌊q⌋ then ⌊q⌋ else ⌊q⌋ + 1

/-- Python `round(x, p)`: round half to even at `p` decimal digits. -/
def pyRoundPrec (q : ℚ) (p : ℕ) : ℚ :=
  (pyRound (q * 10 ^ p) : ℚ) / 10 ^ p

/-- Python `int()` applied to a float: truncation toward zero. -/
def pyInt (q : ℚ) : ℤ := q.num.tdiv q.den

/-- Python `range(lo, lo+n)` as a list of integers. -/
def intRange (lo : ℤ) : ℕ → List ℤ
  | 0 => []
  | n + 1 => lo :: intRange (lo + 1) n

/-- Tail-recursive rational sum (kernel-reduction friendly). -/
def sumQ (l : List ℚ) : ℚ := l.foldl (· + ·) 0

/-- `np.mean` of a rational vector (mean of the empty vector is NaN in
NumPy; here it degenerates to `0/0 = 0`, a case no claim exercises). -/
def meanQ (l : List ℚ) : ℚ := sumQ l / l.length

/-- Consecutive differences, `np.diff`. -/
def diffs (l : List ℤ) : List ℤ := (l.zip l.tail).map fun p => p.2 - p.1

/-- Sequential `Option`-valued map: models a Python loop whose body may
raise (the first raise aborts the whole call). -/
def seqMap (f : α → Option β) : List α → Option (List β)
  | [] => some []
  | a :: l => do
      let b ← f a
      let bs ← seqMap f l
      pure (b :: bs)

/-- A decoded sync block: `start` sample index, binary `code`
(`none` while corrupted), corruption flag, decoded `time` in seconds
(`none` models NaN). From `decodesyncsignal` in `datasync.py`. -/
structure SyncBlock where
  start : ℤ
  code : Option (List ℤ)
  corrupted : Bool
  time : Option ℚ
  deriving Repr, DecidableEq

/-- Float `>` where either side may be NaN (`none`): any comparison with
NaN is false. -/
def nanGT (x y : Option ℚ) : Bool :=
  match x, y with
  | some a, some b => a > b
  | _, _ => false

/-- Float `<` with NaN modelled as `none`. -/
def nanLT (x y : Option ℚ) : Bool :=
  match x, y with
  | some a, some b => a < b
  | _, _ => false

/-- NaN-propagating addition of a float and a rational constant. -/
def nanAdd (x : Option ℚ) (c : ℚ) : Option ℚ := x.map (· + c)

/-- `samples_per_ms = int(round(fs/1e3))`. -/
def samplesPerMs (fs : ℚ) : ℤ := pyRound (fs / 1000)

/-- Binarized signal: `sync_signal > sync_signal.mean()`. -/
def binarize (signal : List ℚ) : List Bool :=
  signal.map fun x => decide (x > meanQ signal)

/-- Indices of rising and falling edges: positions `i ≥ 1` where the
binarized signal differs from its predecessor (`np.diff` of a boolean
array is XOR, with a `False` inserted at position 0). -/
def edgeIdxOf (signal : List ℚ) : List ℤ :=
  let b := binarize signal
  ((List.range signal.length).filter fun i =>
    decide (1 ≤ i) && (b.getD i false != b.getD (i - 1) false)).map
      fun i : ℕ => (i : ℤ)

/-- Map a pulse length to the closest expected length among
`[low, high, inter_block, dropped_block]`; on ties Python's `min` keeps
the earlier entry of the dict. -/
def nearestExpected (fs : ℚ) (y : ℤ) : ℤ :=
  let spm := samplesPerMs fs
  let cands := [spm, 2 * spm, 6 * spm, 106 * spm]
  match cands with
  | [] => y
  | c :: cs => cs.foldl (fun best x => if |x - y| < |best - y| then x else best) c

/-- Edge indices after removing partial leading and trailing blocks:
`edge_idx[1+first_block_edge_start : last_block_edge_end]`. `none` models
the `StopIteration` raised by `next(...)` when no pulse reaches the
inter-block length. -/
def trimmedEdges (signal : List ℚ) (fs : ℚ) : Option (List ℤ) := do
  let edges := edgeIdxOf signal
  let pulses := diffs edges
  let inter := 6 * samplesPerMs fs
  let first ← pulses.findIdx? fun p => decide (p ≥ inter)
  let firstRev ← pulses.reverse.findIdx? fun p => decide (p ≥ inter)
  let lastEnd := pulses.length - firstRev
  pure ((edges.drop (1 + first)).take (lastEnd - (1 + first)))

/-- Block-start pulse indices before the tail filter: pulse `0` plus every
pulse directly after one whose snapped length exceeds `high`. -/
def firstPulseAll (fs : ℚ) (pulses : List ℤ) : List ℕ :=
  let spm := samplesPerMs fs
  0 :: (List.range pulses.length).filter fun j =>
    decide (1 ≤ j) && decide (nearestExpected fs (pulses.getD (j - 1) 0) > 2 * spm)

/-- Block-start pulse indices with enough trailing pulses for a full time
stamp: `first_pulse[first_pulse + 63 < num_pulses]`. -/
def firstPulseKept (fs : ℚ) (pulses : List ℤ) : List ℕ :=
  (firstPulseAll fs pulses).filter fun i => decide (i + 63 < pulses.length)

/-- Raw segmented sync blocks: start edge index and the 32 raw code pulse
lengths at stride 2 (`pulse_len[first_pulse[i] + range(0,63,2)]`).
`none` models the exception of the trimming step. -/
def segBlocks (signal : List ℚ) (fs : ℚ) : Option (List (ℤ × List ℤ)) := do
  let edges ← trimmedEdges signal fs
  let pulses := diffs edges
  pure ((firstPulseKept fs pulses).map fun i =>
    (edges.getD i 0, (List.range 32).map fun k => pulses.getD (i + 2 * k) 0))

/-- Per-pulse code error: minimum absolute distance of a raw code pulse
length to `{low, high}`. -/
def codeError (fs : ℚ) (c : ℤ) : ℤ :=
  min |c - samplesPerMs fs| |c - 2 * samplesPerMs fs|

/-- Corruption check of one block's raw code against the expected pulse
lengths: any code pulse off by more than `max_sample_err`. -/
def blockCorrupted0 (fs maxSampleErr : ℚ) (code : List ℤ) : Bool :=
  code.any fun c => decide ((codeError fs c : ℚ) > maxSampleErr)

/-- Binary code of an uncorrupted block:
`np.round((code - low)/low)` per pulse. -/
def blockBits (fs : ℚ) (code : List ℤ) : List ℤ :=
  code.map fun c => pyRound (((c : ℚ) - samplesPerMs fs) / samplesPerMs fs)

/-- Decoded time of a bit vector: `sum(code * 2**i) / 10` seconds. -/
def bitsTime (bits : List ℤ) : ℚ :=
  ((bits.zipWith (fun b p => b * p) ((List.range 32).map fun i => (2 : ℤ) ^ i)).sum : ℤ) / 10

/-- Stage of `decodesyncsignal` up to the binary decode: blocks with
corruption flags, binary codes (`none` for corrupted), and times
(`none` = NaN for corrupted). -/
def decodedBlocks (signal : List ℚ) (fs maxSampleErr : ℚ) : Option (List SyncBlock) := do
  let raw ← segBlocks signal fs
  pure (raw.map fun (s, code) =>
    let corr := blockCorrupted0 fs maxSampleErr code
    { start := s
      code := if corr then none else some (blockBits fs code)
      corrupted := corr
      time := if corr then none else some (bitsTime (blockBits fs code)) })

/-- Sanity-ceiling pass: any uncorrupted block whose time exceeds
`t_max = sync_blocks[0]['time'] + num_samples/fs` is marked corrupted
(`block['time'] > t_max` is false when `t_max` is NaN). -/
def tMaxPass (tMax : Option ℚ) (blocks : List SyncBlock) : List SyncBlock :=
  blocks.map fun b =>
    if b.corrupted then b else { b with corrupted := nanGT b.time tMax }

/-- Sequential-consistency pass, embedded exactly as written in the source:
`for idx, block in enumerate(sync_blocks, start=1)` pairs index `idx = k+1`
with `block = sync_blocks[k]`, so `sync_blocks[idx-1]` is `block` itself
and each block is compared against its own time — the comparison can never
be true and the pass marks nothing. -/
def seqPass (maxTimeStep : ℚ) (blocks : List SyncBlock) : List SyncBlock :=
  blocks.enum.map fun (k, b) =>
    let idx := k + 1
    if b.corrupted then b
    else
      { b with corrupted :=
          nanGT b.time (nanAdd (blocks.getD (idx - 1) b).time maxTimeStep) ||
          nanLT b.time (blocks.getD (idx - 1) b).time }

/-- `decodesyncsignal(sync_signal, fs, max_sample_err=2, max_time_step=0.2)`
from `datasync.py`. Returns `none` where the Python raises: `StopIteration`
when no inter-block pulse exists, and `IndexError` at
`sync_blocks[0]['time']` when no complete block was segmented. -/
def decodesyncsignal (signal : List ℚ) (fs maxSampleErr maxTimeStep : ℚ) :
    Option (List SyncBlock) := do
  let blocks ← decodedBlocks signal fs maxSampleErr
  match blocks with
  | [] => none
  | b0 :: rest =>
    let tMax := nanAdd b0.time ((signal.length : ℚ) / fs)
    let blocks2 := seqPass maxTimeStep (tMaxPass tMax (b0 :: rest))
    pure (blocks2.filter fun b => !b.corrupted)

/-- The 32 bits of a natural number, least significant first — the bit
layout of one sync-block timing code. -/
def bitsZ (v : ℕ) : List ℤ :=
  (List.range 32).map fun i => ((v / 2 ^ i) % 2 : ℕ)

/-- Pulse lengths of one encoded sync block at `samples_per_ms = 1`: the
32 code pulses (`low = 1` for bit 0, `high = 2` for bit 1) separated by 31
one-sample spacer pulses. -/
def blockRuns (v : ℕ) : List ℕ :=
  ((List.range 32).map fun i => [(1 + (v / 2 ^ i) % 2 : ℕ), 1]).flatten.dropLast

/-- Run lengths of a canonical synthetic sync signal at `fs = 1000 Hz`
(levels alternate starting high): a 2-sample lead-in, then for each
decisecond timestamp a 6-sample inter-block gap followed by its block
pulses, then a closing gap / 1-sample pulse / gap / 1-sample tail so the
last block retains the 64 trailing pulses the decoder requires. -/
def syncRuns (stamps : List ℕ) : List ℕ :=
  2 :: (stamps.map fun v => 6 :: blockRuns v).flatten ++ [6, 1, 6, 1]

/-- Turn run lengths into a 0/1 signal with alternating levels, first run
high. -/
def signalOfRuns (runs : List ℕ) : List ℚ :=
  (runs.enum.map fun (i, len) =>
    List.replicate len (if i % 2 = 0 then (1 : ℚ) else 0)).flatten

/-- Synthetic binary sync signal encoding a list of decisecond timestamps
with canonical pulse lengths for `fs = 1000 Hz`. -/
def encodeSync (stamps : List ℕ) : List ℚ :=
  signalOfRuns (syncRuns stamps)

/-- Midpoints of consecutive entries of a rational vector:
`np.concatenate((v[:-1,None], v[1:,None]), axis=1).mean(axis=1)`. -/
def midBins (l : List ℚ) : List ℚ :=
  (l.zip l.tail).map fun p => (p.1 + p.2) / 2

/-- Nearest sync block for a trial start time:
`np.digitize(t0, sync_block_time_bins) - 1` with bin edges
`[0] ++ midpoints ++ [inf]`. For increasing bins `np.digitize` counts the
bin edges `≤ t0`; the `inf` edge never counts and the decoder's block
times are nonnegative, so `t0 ≥ 0` whenever this is evaluated. -/
def nearestBlock (syncTime : List ℚ) (t0 : ℚ) : ℕ :=
  (((0 : ℚ) :: midBins syncTime).countP fun e => decide (e ≤ t0)) - 1

/-- Finite prefix of `sync_block_start_bins`: a leading `0`, then the
midpoints between consecutive block start samples (the trailing `inf` edge
is represented implicitly). -/
def startBinsFin (syncStart : List ℤ) : List ℚ :=
  0 :: midBins (syncStart.map fun s => (s : ℚ))

/-- `samp2time(xi, sync_idx)`: map an ephys sample index to the Speedgoat
time base via the selected sync block, rounded to 6 decimals. -/
def samp2time (fsEphys : ℚ) (syncStart : List ℤ) (syncTime : List ℚ)
    (k : ℕ) (xi : ℤ) : ℚ :=
  pyRoundPrec (syncTime.getD k 0 + ((xi : ℚ) - (syncStart.getD k 0 : ℤ)) / fsEphys) 6

/-- Lower end of the candidate sample window:
`np.floor(sync_block_start_bins[nearest_block]).astype(int)`. -/
def windowLo (syncStart : List ℤ) (nb : ℕ) : ℤ :=
  ⌊(startBinsFin syncStart).getD nb 0⌋

/-- One past the upper end of the candidate sample window:
`1 + np.ceil(sync_block_start_bins[-2]).astype(int)` — the second-to-last
bin edge, i.e. the midpoint between the last two block start samples. -/
def windowHi (syncStart : List ℤ) : ℤ :=
  1 + ⌈(startBinsFin syncStart).getLastD 0⌉

/-- Per-trial body of the loop in `ephystrialstart`: `some none` is a NaN
entry (trial start outside sync coverage), `some (some i)` a found sample
index, `none` the `StopIteration` of an unsatisfiable candidate search or
the `IndexError` of an empty sync block list. -/
def trialStartIdx (fsEphys : ℚ) (syncStart : List ℤ) (syncTime : List ℚ)
    (t0 : ℚ) : Option (Option ℤ) := do
  let t1 ← syncTime.head?
  let tl ← syncTime.getLast?
  if t0 < t1 ∨ t0 > tl then
    pure none
  else do
    let i ← (intRange (windowLo syncStart (nearestBlock syncTime t0))
        (windowHi syncStart - windowLo syncStart (nearestBlock syncTime t0)).toNat).find?
      fun i : ℤ =>
        decide (samp2time fsEphys syncStart syncTime (nearestBlock syncTime t0) i ≥ t0)
    pure (some i)

/-- `ephystrialstart(fs_ephys, trial_time, sync_block_start,
sync_block_time)` from `datasync.py`: per-trial ephys start sample
indices, NaN (`none`) for trials outside sync coverage, with the fixed
`round(0.1 * fs_ephys)`-sample temporal correction subtracted at the end. -/
def ephystrialstart (fsEphys : ℚ) (trialTime : List (List ℚ))
    (syncStart : List ℤ) (syncTime : List ℚ) : Option (List (Option ℤ)) := do
  let starts ← seqMap List.head? trialTime
  let res ← seqMap (trialStartIdx fsEphys syncStart syncTime) starts
  pure (res.map (Option.map fun i : ℤ => i - pyRound (1/10 * fsEphys)))

/-- Modelled from the spec wording of claim C6, for comparison with the
source embedding: select the nearest block by midpoint time bins, search
candidates "over a window spanning from that block's start_sample_index to
the next block's start_sample_index", return the first candidate whose
implied time `anchor.time + (i − anchor.start)/fs_ephys` reaches the trial
start time, minus `round(0.1 * fs_ephys)` samples. -/
def claimC6TrialStart (fsEphys : ℚ) (syncStart : List ℤ) (syncTime : List ℚ)
    (t0 : ℚ) : Option ℤ := do
  let nb := nearestBlock syncTime t0
  let lo := syncStart.getD nb 0
  let hi := syncStart.getD (nb + 1) 0
  let i ← (intRange lo (hi - lo).toNat).find? fun i : ℤ =>
    decide (syncTime.getD nb 0 + ((i : ℚ) - (lo : ℚ)) / fsEphys ≥ t0)
  pure (i - pyRound (1/10 * fsEphys))

end DataSync

namespace Pacman

open DataSync

/-- Base-10 logarithm of a natural number (floor), by fuel-bounded
repeated division so that it reduces structurally. -/
def log10Aux : ℕ → ℕ → ℕ
  | 0, _ => 0
  | fuel + 1, n => if n < 10 then 0 else 1 + log10Aux fuel (n / 10)

/-- Truncation toward zero of `np.log10` on a sample rate, `int(np.log10(fs))`.
All sample rates in the pipeline are at least 1 Hz. -/
def intLog10 (q : ℚ) : ℤ :=
  if 1 ≤ q then (log10Aux ⌊q⌋.toNat ⌊q⌋.toNat : ℕ) else 0

/-- `np.mean((xs - ys)**2)` for same-length vectors. -/
def mseQ (xs ys : List ℚ) : ℚ :=
  meanQ (List.zipWith (fun a b => (a - b) ^ 2) xs ys)

/-- `np.var`, the population variance (`ddof = 0`). -/
def varQ (l : List ℚ) : ℚ :=
  meanQ (l.map fun x => (x - meanQ l) ^ 2)

/-- NumPy array element access with wrap-around of negative indices
(`a[i] = a[len(a)+i]` for `-len(a) ≤ i < 0`; indices outside `[-n, n)`
raise IndexError in NumPy, a case no claim exercises). -/
def npGet (l : List ℚ) (i : ℤ) : ℚ :=
  l.getD (i % (l.length : ℤ)).toNat 0

/-- Inputs of the computational kernel of `TrialAlignment.make`
(`pacman_processing.py`): the fetched trial/condition data in place of the
database reads. `isStatic` is membership of the trial's condition in
`ConditionParams.Static` (the type tag `STA` in `parseparams`). -/
structure MakeIn where
  t : List ℚ
  targetForce : List ℚ
  force : List ℚ
  alignIdx : ℤ
  fsBeh : ℚ
  fsEphys : ℚ
  ephysTrialStart : ℤ
  isStatic : Bool
  maxLag : ℚ

/-- `max_lag_samp = int(round(fs_beh * max_lag))`. -/
def maxLagSamp (inp : MakeIn) : ℤ := pyRound (inp.fsBeh * inp.maxLag)

/-- `lags = range(-max_lag_samp, 1 + max_lag_samp)`. -/
def lagsList (inp : MakeIn) : List ℤ :=
  intRange (-(maxLagSamp inp)) (1 + 2 * maxLagSamp inp).toNat

/-- `precision = int(np.log10(fs_beh))`. -/
def precOf (inp : MakeIn) : ℕ := (intLog10 inp.fsBeh).toNat

/-- `trunc_idx = np.nonzero((t >= round(t[0]+max_lag, precision)) &
(t <= round(t[-1]-max_lag, precision)))[0]`. -/
def truncIdx (inp : MakeIn) : List ℕ :=
  (List.range inp.t.length).filter fun i =>
    decide (inp.t.getD i 0 ≥ pyRoundPrec (inp.t.headD 0 + inp.maxLag) (precOf inp)) &&
    decide (inp.t.getD i 0 ≤ pyRoundPrec (inp.t.getLastD 0 - inp.maxLag) (precOf inp))

/-- `target_force = target_force[trunc_idx]`. -/
def targetTrunc (inp : MakeIn) : List ℚ :=
  (truncIdx inp).map fun i => inp.targetForce.getD i 0

/-- `zero_idx = next(i for i in range(len(t)) if t[i] >= 0)`; `none` models
the `StopIteration` for all-negative time vectors. -/
def zeroIdx (inp : MakeIn) : Option ℕ :=
  inp.t.findIdx? fun x => decide (x ≥ 0)

/-- `align_idx_trunc = trunc_idx - zero_idx`. -/
def alignIdxTrunc (inp : MakeIn) (z : ℕ) : List ℤ :=
  (truncIdx inp).map fun i : ℕ => (i : ℤ) - (z : ℤ)

/-- `align_idx_trunc[-1]`. -/
def lastTrunc (inp : MakeIn) (z : ℕ) : ℤ := (alignIdxTrunc inp z).getLastD 0

/-- The guard under which a lag is scored:
`(align_idx + lag + align_idx_trunc[-1]) < len(force)`. -/
def scoreGuard (inp : MakeIn) (z : ℕ) (lag : ℤ) : Bool :=
  decide (inp.alignIdx + lag + lastTrunc inp z < (inp.force.length : ℤ))

/-- `force_align = force[align_idx + lag + align_idx_trunc]`. -/
def windowAt (inp : MakeIn) (z : ℕ) (lag : ℤ) : List ℚ :=
  (alignIdxTrunc inp z).map fun k => npGet inp.force (inp.alignIdx + lag + k)

/-- The rational argument of the square root in the NMSE:
`np.mean((force_align - target_force)**2) / np.var(target_force)`. -/
def nmseArg (inp : MakeIn) (z : ℕ) (lag : ℤ) : ℚ :=
  mseQ (windowAt inp z lag) (targetTrunc inp) / varQ (targetTrunc inp)

/-- `nmse[idx] = 1 - np.sqrt(np.mean((force_align - target_force)**2) /
np.var(target_force))` for a scored lag; unscored lags keep the `-np.inf`
initialization, modelled as `⊥ : EReal`. The square root forces real
arithmetic, hence this part of the embedding is noncomputable. -/
noncomputable def score (inp : MakeIn) (z : ℕ) (lag : ℤ) : EReal :=
  if scoreGuard inp z lag then
    ((1 - Real.sqrt ((nmseArg inp z lag : ℚ) : ℝ) : ℝ) : EReal)
  else ⊥

/-- The nmse score array, one entry per candidate lag. -/
noncomputable def scores (inp : MakeIn) (z : ℕ) : List EReal :=
  (lagsList inp).map (score inp z)

/-- `np.argmax`: index of the first occurrence of the maximum value. -/
noncomputable def argmaxFirst : List EReal → ℕ
  | [] => 0
  | [_] => 0
  | x :: y :: tl =>
    have := Classical.dec ((y :: tl).getD (argmaxFirst (y :: tl)) ⊥ ≤ x)
    if (y :: tl).getD (argmaxFirst (y :: tl)) ⊥ ≤ x then 0
    else argmaxFirst (y :: tl) + 1

/-- `lags[np.argmax(nmse)]`, the winning lag of the phase-correction
search. -/
noncomputable def selectedLag (inp : MakeIn) (z : ℕ) : ℤ :=
  (lagsList inp).getD (argmaxFirst (scores inp z)) 0

/-- `behavior_alignment = np.array(range(len(t))) + align_idx - zero_idx`
(with `align_idx` already shifted by the winning lag). -/
def behaviorAlignment (inp : MakeIn) (alignIdx2 : ℤ) (z : ℕ) : List ℤ :=
  (List.range inp.t.length).map fun i : ℕ => (i : ℤ) + alignIdx2 - (z : ℤ)

/-- `ephys_alignment = np.round(fs_ephys * np.arange(t[0], t[-1]+1/fs_beh,
1/fs_ephys)) + (align_idx - zero_idx) * int(fs_ephys/fs_beh)
+ ephys_trial_start`, cast to int. -/
def ephysAlignment (inp : MakeIn) (alignIdx2 : ℤ) (z : ℕ) : List ℤ :=
  (List.range
      (⌈(inp.t.getLastD 0 + 1 / inp.fsBeh - inp.t.headD 0) / (1 / inp.fsEphys)⌉.toNat)).map
    fun k : ℕ =>
      pyRound (inp.fsEphys * (inp.t.headD 0 + (k : ℚ) * (1 / inp.fsEphys))) +
        (alignIdx2 - (z : ℤ)) * pyInt (inp.fsEphys / inp.fsBeh) + inp.ephysTrialStart

/-- Outputs of the kernel of `TrialAlignment.make`: the applied lag, the
nmse score array (empty when the lag search was skipped), and the two
alignment index arrays inserted into the table. -/
structure MakeOut where
  lag : ℤ
  scores : List EReal
  behaviorAlignment : List ℤ
  ephysAlignment : List ℤ

/-- The computational kernel of `TrialAlignment.make`
(`pacman_processing.py`, lines 195-235): skip the lag search for Static
conditions, otherwise score every candidate lag and shift `align_idx` by
the argmax. `none` models the uncaught exceptions (`StopIteration` for a
time vector with no nonnegative entry, `ValueError`/`IndexError` for a
negative lag count or empty truncation window). -/
noncomputable def makeKernel (inp : MakeIn) : Option MakeOut := do
  let z ← zeroIdx inp
  if inp.isStatic then
    pure { lag := 0, scores := []
           behaviorAlignment := behaviorAlignment inp inp.alignIdx z
           ephysAlignment := ephysAlignment inp inp.alignIdx z }
  else if maxLagSamp inp < 0 then none
  else if truncIdx inp = [] then none
  else
    pure { lag := selectedLag inp z, scores := scores inp z
           behaviorAlignment := behaviorAlignment inp (inp.alignIdx + selectedLag inp z) z
           ephysAlignment := ephysAlignment inp (inp.alignIdx + selectedLag inp z) z }

/-- Time vector of `ConditionParams.targetforce`
(`pacman_acquisition.py`): `np.round(np.arange(-target_pad + 1/Fs,
target_duration + target_pad + 1/Fs, 1/Fs), prec)`. -/
def targetforceTime (Fs pad dur : ℚ) (prec : ℕ) : List ℚ :=
  let start := -pad + 1 / Fs
  let stop := dur + pad + 1 / Fs
  let count := (⌈(stop - start) / (1 / Fs)⌉).toNat
  (List.range count).map fun k : ℕ => pyRoundPrec (start + (k : ℚ) * (1 / Fs)) prec

/-- Target force profile of a Ramp condition
(`force_fcn = (target_amplitude/target_duration) * t`, spliced as constant
before and after the target region, then offset and scaled):
`force = (force + target_offset) * force_max`. -/
def rampForce (Fs pad dur amp offset fmax : ℚ) (prec : ℕ) : List ℚ :=
  let t := targetforceTime Fs pad dur prec
  let fcn := fun x : ℚ => (amp / dur) * x
  let preT := match t.findIdx? (fun x => decide (0 < x) && decide (x ≤ dur)) with
    | some i => t.getD i 0
    | none => t.headD 0
  let postT := match t.findIdx? (fun x => decide (dur < x)) with
    | some i => t.getD i 0
    | none => t.headD 0
  (t.map fun x =>
    if x ≤ 0 then fcn preT else if x ≤ dur then fcn x else fcn postT).map
      fun f => (f + offset) * fmax

/-- Target force profile of a Static condition
(`force_fcn = target_offset * np.zeros(t.shape)`, i.e. identically zero,
then offset and scaled). -/
def staticForce (Fs pad dur offset fmax : ℚ) (prec : ℕ) : List ℚ :=
  (targetforceTime Fs pad dur prec).map fun _ => ((0 : ℚ) + offset) * fmax

end Pacman

namespace DataSync

section ConcreteDecoding

attribute [local semireducible] Rat.add Rat.sub Rat.mul Rat.inv Rat.ofScientific

set_option maxRecDepth 8000

/-- C1: for the synthetic binary signal encoding the increasing decisecond
timestamps 5, 6, 7 with canonical pulse lengths (low = round(fs/1000) = 1
sample, high = 2, inter-block gap = 6), `decodesyncsignal` at `fs = 1000`
returns exactly one block per encoded timestamp, none corrupted, each
block's time the 32-bit little-endian value of its code pulses divided
by 10 (0.5 s, 0.6 s, 0.7 s), at the correct start sample offsets
8, 79, 150. -/
theorem c1_roundtrip_decode :
    decodesyncsignal (encodeSync [5, 6, 7]) 1000 2 (1/5) =
      some [⟨8, some (bitsZ 5), false, some (5/10)⟩,
            ⟨79, some (bitsZ 6), false, some (6/10)⟩,
            ⟨150, some (bitsZ 7), false, some (7/10)⟩] := by
  decide

/-- C2: the sequential-consistency pass never drops anything. For the
synthetic signal encoding the time-reversed pair 0.5 s, 0.3 s, the second
block is returned as valid, and for the pair 0.5 s, 0.8 s (forward step
0.3 s > `max_time_step` = 0.2 s, recording padded so the sanity ceiling
does not interfere) the out-of-step block is returned as valid: the
source's `enumerate(sync_blocks, start=1)` makes `sync_blocks[idx-1]` the
current block itself, so the reversal/step comparison is a self-comparison
and can never mark a block corrupted. -/
theorem c2_seq_check_is_noop :
    decodesyncsignal (encodeSync [5, 3]) 1000 2 (1/5) =
      some [⟨8, some (bitsZ 5), false, some (5/10)⟩,
            ⟨79, some (bitsZ 3), false, some (3/10)⟩] ∧
    decodesyncsignal (encodeSync [5, 8] ++ List.replicate 150 0) 1000 2 (1/5) =
      some [⟨8, some (bitsZ 5), false, some (5/10)⟩,
            ⟨79, some (bitsZ 8), false, some (8/10)⟩] := by
  constructor <;> decide

/-- C3: changing one code pulse of the second encoded block (run index 68,
a `high` pulse of the timestamp 6) from 2 samples to 5 — an error of 3 >
`max_sample_err` = 2 — causes exactly that block to be flagged corrupted
and excluded: the clean signal decodes to both blocks, the corrupted
signal to the first block only, unchanged. -/
theorem c3_corruption_injection :
    decodesyncsignal (encodeSync [5, 6]) 1000 2 (1/5) =
      some [⟨8, some (bitsZ 5), false, some (5/10)⟩,
            ⟨79, some (bitsZ 6), false, some (6/10)⟩] ∧
    decodesyncsignal (signalOfRuns ((syncRuns [5, 6]).set 68 5)) 1000 2 (1/5) =
      some [⟨8, some (bitsZ 5), false, some (5/10)⟩] := by
  constructor <;> decide

/-- C4 counterexample: a signal with edges and an inter-block gap pulse but
zero complete 64-pulse blocks after trimming makes `decodesyncsignal`
raise (modelled `none`, the `IndexError` at `sync_blocks[0]['time']`)
instead of returning an empty list. -/
theorem c4_no_blocks_raises_counterexample :
    edgeIdxOf (signalOfRuns [2, 6, 1, 6, 1]) ≠ [] ∧
    (diffs (edgeIdxOf (signalOfRuns [2, 6, 1, 6, 1]))).any
      (fun p => decide (p ≥ 6 * samplesPerMs 1000)) = true ∧
    segBlocks (signalOfRuns [2, 6, 1, 6, 1]) 1000 = some [] ∧
    decodesyncsignal (signalOfRuns [2, 6, 1, 6, 1]) 1000 2 (1/5) = none := by
  refine ⟨by decide, by decide, by decide, by decide⟩

/-- C4 amended: whenever block segmentation yields zero complete blocks
(but trimming itself succeeded), `decodesyncsignal` raises — modelled as
`none` — rather than returning an empty list. -/
theorem c4_no_blocks_raises (signal : List ℚ) (fs maxSampleErr maxTimeStep : ℚ)
    (h : segBlocks signal fs = some []) :
    decodesyncsignal signal fs maxSampleErr maxTimeStep = none := by
  simp [decodesyncsignal, decodedBlocks, h]

/-- Witness for `c4_no_blocks_raises` at the concrete gap-only signal. -/
theorem c4_no_blocks_raises_witness :
    segBlocks (signalOfRuns [2, 6, 1, 6, 1]) 1000 = some [] ∧
    decodesyncsignal (signalOfRuns [2, 6, 1, 6, 1]) 1000 2 (1/5) = none :=
  ⟨by decide, c4_no_blocks_raises _ 1000 2 (1/5) (by decide)⟩

end ConcreteDecoding

end DataSync


open DataSync Pacman



/-- The tail-recursive sum agrees with `List.sum`. -/
theorem sumQ_eq_sum (l : List ℚ) : sumQ l = l.sum := by
  simp [sumQ, List.sum_eq_foldl]


/-- A successful `seqMap` preserves the length. -/
theorem seqMap_length {α β : Type} {f : α → Option β} :
    ∀ {l : List α} {r : List β}, seqMap f l = some r → r.length = l.length := by
  intro l
  induction l with
  | nil => intro r h; simp [seqMap] at h; subst h; rfl
  | cons a t ih =>
    intro r h
    rw [seqMap] at h
    cases hfa : f a with
    | none => simp [hfa] at h
    | some b =>
      cases hbs : seqMap f t with
      | none => simp [hfa, hbs] at h
      | some bs =>
        simp [hfa, hbs] at h
        subst h
        simp [ih hbs]


/-- Entries of a successful `seqMap` come from applying the body to the
corresponding input entry. -/
theorem seqMap_getElem? {α β : Type} {f : α → Option β} :
    ∀ {l : List α} {r : List β}, seqMap f l = some r →
      ∀ {i : ℕ} {a : α}, l[i]? = some a → ∃ b, f a = some b ∧ r[i]? = some b := by
  intro l
  induction l with
  | nil => intro r h i a ha; simp at ha
  | cons x t ih =>
    intro r h i a ha
    rw [seqMap] at h
    cases hfa : f x with
    | none => simp [hfa] at h
    | some b =>
      cases hbs : seqMap f t with
      | none => simp [hfa, hbs] at h
      | some bs =>
        simp [hfa, hbs] at h
        subst h
        cases i with
        | zero => simp at ha; subst ha; exact ⟨b, hfa, by simp⟩
        | succ j =>
          simp only [List.getElem?_cons_succ] at ha
          obtain ⟨c, hc, hr⟩ := ih hbs ha
          exact ⟨c, hc, by simpa using hr⟩


/-- The `k`-th entry of `intRange lo n` is `lo + k`. -/
theorem intRange_getElem? :
    ∀ (n : ℕ) (lo : ℤ) (k : ℕ), k < n → (intRange lo n)[k]? = some (lo + k) := by
  intro n
  induction n with
  | zero => intro lo k h; omega
  | succ m ih =>
    intro lo k h
    cases k with
    | zero => simp [intRange]
    | succ j =>
      have := ih (lo + 1) j (by omega)
      simp only [intRange, List.getElem?_cons_succ, this]
      congr 1
      push_cast
      ring


/-- `intRange lo n` has length `n`. -/
theorem intRange_length (n : ℕ) (lo : ℤ) : (intRange lo n).length = n := by
  induction n generalizing lo with
  | zero => rfl
  | succ m ih => simp [intRange, ih]


/-- Membership in `intRange` is the interval condition. -/
theorem mem_intRange {x : ℤ} :
    ∀ {n : ℕ} {lo : ℤ}, x ∈ intRange lo n ↔ lo ≤ x ∧ x < lo + n := by
  intro n
  induction n with
  | zero => intro lo; simp [intRange]
  | succ m ih =>
    intro lo
    simp only [intRange, List.mem_cons, ih]
    omega


/-- Characterization of `find?` on an integer range: the result satisfies
the predicate, lies in the range, and is the first such value. -/
theorem intRange_find?_eq_some {p : ℤ → Bool} :
    ∀ {n : ℕ} {lo i : ℤ}, (intRange lo n).find? p = some i →
      p i = true ∧ lo ≤ i ∧ i < lo + n ∧ ∀ j, lo ≤ j → j < i → p j = false := by
  intro n
  induction n with
  | zero => intro lo i h; simp [intRange] at h
  | succ m ih =>
    intro lo i h
    rw [intRange] at h
    rcases hp : p lo with _ | _
    · rw [List.find?_cons_of_neg _ (by simp [hp])] at h
      obtain ⟨h1, h2, h3, h4⟩ := ih h
      refine ⟨h1, by omega, by push_cast at h3 ⊢; omega, ?_⟩
      intro j hj1 hj2
      rcases eq_or_lt_of_le hj1 with rfl | hlt
      · exact hp
      · exact h4 j (by omega) hj2
    · rw [List.find?_cons_of_pos _ (by simp [hp])] at h
      obtain rfl : lo = i := by simpa using h
      refine ⟨hp, le_refl _, by push_cast; omega, ?_⟩
      intro j h1 h2
      omega


/-- `pyRound` lands on the floor or the floor plus one. -/
theorem pyRound_bounds (q : ℚ) : ⌊q⌋ ≤ pyRound q ∧ pyRound q ≤ ⌊q⌋ + 1 := by
  unfold pyRound
  split_ifs <;> omega


/-- `pyRound` is monotone. -/
theorem pyRound_mono {x y : ℚ} (h : x ≤ y) : pyRound x ≤ pyRound y := by
  have hf : ⌊x⌋ ≤ ⌊y⌋ := Int.floor_le_floor h
  rcases eq_or_lt_of_le hf with heq | hlt
  · have hfr : x - ⌊x⌋ ≤ y - ⌊y⌋ := by
      rw [← heq]
      linarith
    unfold pyRound
    rw [← heq]
    split_ifs <;> first | omega | linarith
  · calc pyRound x ≤ ⌊x⌋ + 1 := (pyRound_bounds x).2
      _ ≤ ⌊y⌋ := by omega
      _ ≤ pyRound y := (pyRound_bounds y).1


/-- A pointwise non-decreasing function of `range n` gives a `≤`-chain. -/
theorem chain'_le_of_range_map {f : ℕ → ℤ} (n : ℕ) (hf : ∀ k, f k ≤ f (k + 1)) :
    List.Chain' (· ≤ ·) ((List.range n).map f) := by
  rw [List.chain'_map]
  cases n with
  | zero => simp
  | succ m => exact (List.chain'_range_succ _ m).2 fun k _ => hf k


/-- A pointwise increasing function of `range n` gives a `<`-chain. -/
theorem chain'_lt_of_range_map {f : ℕ → ℤ} (n : ℕ) (hf : ∀ k, f k < f (k + 1)) :
    List.Chain' (· < ·) ((List.range n).map f) := by
  rw [List.chain'_map]
  cases n with
  | zero => simp
  | succ m => exact (List.chain'_range_succ _ m).2 fun k _ => hf k


/-- The behavior alignment indices are strictly increasing: they are
consecutive integers. -/
theorem behaviorAlignment_chain (inp : MakeIn) (c : ℤ) (z : ℕ) :
    List.Chain' (· < ·) (behaviorAlignment inp c z) := by
  unfold behaviorAlignment
  apply chain'_lt_of_range_map
  intro k
  push_cast
  omega


/-- The ephys alignment indices are non-decreasing: the rounded values
`round(fs_ephys*t0 + k)` grow with `k` (banker's rounding can repeat a
value when `fs_ephys*t0` is a half-integer, so only `≤` holds). -/
theorem ephysAlignment_chain (inp : MakeIn) (c : ℤ) (z : ℕ) (hfs : 0 < inp.fsEphys) :
    List.Chain' (· ≤ ·) (ephysAlignment inp c z) := by
  unfold ephysAlignment
  apply chain'_le_of_range_map
  intro k
  have harg : ∀ j : ℕ, inp.fsEphys * (inp.t.headD 0 + (j : ℚ) * (1 / inp.fsEphys)) =
      inp.fsEphys * inp.t.headD 0 + (j : ℚ) := by
    intro j
    field_simp
    ring
  have hmono : pyRound (inp.fsEphys * (inp.t.headD 0 + (k : ℚ) * (1 / inp.fsEphys))) ≤
      pyRound (inp.fsEphys * (inp.t.headD 0 + ((k + 1 : ℕ) : ℚ) * (1 / inp.fsEphys))) := by
    apply pyRound_mono
    rw [harg k, harg (k + 1)]
    push_cast
    linarith
  omega


/-- `argmaxFirst` of a nonempty list is a valid index. -/
theorem argmaxFirst_lt_length : ∀ {l : List EReal}, l ≠ [] → argmaxFirst l < l.length := by
  intro l
  induction l with
  | nil => intro h; exact absurd rfl h
  | cons x xs ih =>
    intro _
    cases xs with
    | nil => simp [argmaxFirst]
    | cons y tl =>
      simp only [argmaxFirst]
      split_ifs with hc
      · simp
      · have := ih (by simp)
        simpa using Nat.succ_lt_succ this


/-- Every entry is at most the entry at `argmaxFirst`. -/
theorem le_argmaxFirst :
    ∀ (l : List EReal) (j : ℕ), j < l.length →
      l.getD j ⊥ ≤ l.getD (argmaxFirst l) ⊥ := by
  intro l
  induction l with
  | nil => intro j hj; simp at hj
  | cons x xs ih =>
    intro j hj
    cases xs with
    | nil =>
      cases j with
      | zero => simp [argmaxFirst]
      | succ m => simp at hj
    | cons y tl =>
      simp only [argmaxFirst]
      split_ifs with hc
      · cases j with
        | zero => simp
        | succ m =>
          simp only [List.getD_cons_succ, List.getD_cons_zero]
          exact le_trans (ih m (by simpa using Nat.lt_of_succ_lt_succ hj)) hc
      · push_neg at hc
        cases j with
        | zero =>
          simp only [List.getD_cons_succ, List.getD_cons_zero]
          exact le_of_lt hc
        | succ m =>
          simp only [List.getD_cons_succ]
          exact ih m (by simpa using Nat.lt_of_succ_lt_succ hj)


/-- Entries before `argmaxFirst` are strictly below it: `np.argmax`
returns the first occurrence of the maximum. -/
theorem lt_argmaxFirst :
    ∀ (l : List EReal) (j : ℕ), j < argmaxFirst l →
      l.getD j ⊥ < l.getD (argmaxFirst l) ⊥ := by
  intro l
  induction l with
  | nil => intro j hj; simp [argmaxFirst] at hj
  | cons x xs ih =>
    intro j hj
    cases xs with
    | nil => simp [argmaxFirst] at hj
    | cons y tl =>
      simp only [argmaxFirst] at hj ⊢
      split_ifs with hc
      · rw [if_pos hc] at hj
        omega
      · rw [if_neg hc] at hj
        push_neg at hc
        cases j with
        | zero => simpa using hc
        | succ m =>
          simp only [List.getD_cons_succ]
          exact ih m (Nat.lt_of_succ_lt_succ hj)


/-- With a unique strict maximum, `argmaxFirst` returns its index. -/
theorem argmaxFirst_eq_of_unique (l : List EReal) (i : ℕ) (hi : i < l.length)
    (hmax : ∀ j, j < l.length → j ≠ i → l.getD j ⊥ < l.getD i ⊥) :
    argmaxFirst l = i := by
  by_contra hne
  have hlen : l ≠ [] := by
    intro h
    subst h
    simp at hi
  have h1 := le_argmaxFirst l i hi
  have h2 := hmax (argmaxFirst l) (argmaxFirst_lt_length hlen) hne
  exact absurd (lt_of_le_of_lt h1 h2) (lt_irrefl _)


/-- When the head is a maximum, ties are broken toward index 0. -/
theorem argmaxFirst_eq_zero_of_le (l : List EReal)
    (h0 : ∀ j, j < l.length → l.getD j ⊥ ≤ l.getD 0 ⊥) :
    argmaxFirst l = 0 := by
  cases hl : l with
  | nil => simp [argmaxFirst]
  | cons x xs =>
    subst hl
    by_contra hne
    have hpos : 0 < argmaxFirst (x :: xs) := Nat.pos_of_ne_zero hne
    have h1 := lt_argmaxFirst (x :: xs) 0 hpos
    have h2 := h0 (argmaxFirst (x :: xs)) (argmaxFirst_lt_length (by simp))
    exact absurd (lt_of_lt_of_le h1 h2) (lt_irrefl _)


/-- A sum of nonnegative terms with one positive member is positive. -/
theorem sum_pos_of_mem {l : List ℚ} (hnn : ∀ x ∈ l, 0 ≤ x) {a : ℚ}
    (ha : a ∈ l) (hpos : 0 < a) : 0 < l.sum := by
  induction l with
  | nil => simp at ha
  | cons x t ih =>
    rw [List.sum_cons]
    rcases List.mem_cons.mp ha with rfl | hat
    · have : 0 ≤ t.sum := List.sum_nonneg fun y hy => hnn y (List.mem_cons_of_mem _ hy)
      linarith
    · have hx : 0 ≤ x := hnn x (List.mem_cons_self _ _)
      have := ih (fun y hy => hnn y (List.mem_cons_of_mem _ hy)) hat
      linarith


/-- The mean squared error of a vector against itself vanishes. -/
theorem mseQ_self (xs : List ℚ) : mseQ xs xs = 0 := by
  unfold mseQ meanQ
  rw [List.zipWith_same, sumQ_eq_sum]
  have : (xs.map fun a => (a - a) ^ 2).sum = 0 := List.sum_eq_zero (by simp)
  rw [this, zero_div]


/-- The mean squared error of two distinct same-length vectors is
positive. -/
theorem mseQ_pos {xs ys : List ℚ} (hlen : xs.length = ys.length) (hne : xs ≠ ys) :
    0 < mseQ xs ys := by
  obtain ⟨i, hi, hneq⟩ : ∃ i, ∃ _ : i < xs.length, xs[i] ≠ ys[i] := by
    by_contra hcon
    push_neg at hcon
    exact hne (List.ext_getElem hlen fun i h1 h2 => hcon i h1)
  have hylen : i < ys.length := by omega
  have hdlen : (List.zipWith (fun a b => (a - b) ^ 2) xs ys).length = xs.length := by
    rw [List.length_zipWith]
    omega
  have hiz : i < (List.zipWith (fun a b => (a - b) ^ 2) xs ys).length := by omega
  have hentry : (List.zipWith (fun a b => (a - b) ^ 2) xs ys)[i] =
      (xs[i] - ys[i]) ^ 2 := List.getElem_zipWith
  have hmem : (xs[i] - ys[i]) ^ 2 ∈ List.zipWith (fun a b => (a - b) ^ 2) xs ys := by
    rw [← hentry]
    exact List.getElem_mem hiz
  have hnn : ∀ e ∈ List.zipWith (fun a b => (a - b) ^ 2) xs ys, (0 : ℚ) ≤ e := by
    intro e he
    obtain ⟨j, hj, rfl⟩ := List.mem_iff_getElem.mp he
    rw [List.getElem_zipWith]
    positivity
  have hd : xs[i] - ys[i] ≠ 0 := sub_ne_zero_of_ne hneq
  have hsum : 0 < (List.zipWith (fun a b => (a - b) ^ 2) xs ys).sum :=
    sum_pos_of_mem hnn hmem (sq_pos_of_ne_zero hd)
  unfold mseQ meanQ
  rw [sumQ_eq_sum]
  apply div_pos hsum
  rw [hdlen]
  exact_mod_cast Nat.pos_of_ne_zero (by omega)


/-- A vector with positive variance is nonempty. -/
theorem varQ_pos_ne_nil {l : List ℚ} (h : 0 < varQ l) : l ≠ [] := by
  intro hl
  subst hl
  simp [varQ, meanQ, sumQ] at h


/-- The aligned force window has the length of the truncated target. -/
theorem windowAt_length (inp : MakeIn) (z : ℕ) (lag : ℤ) :
    (windowAt inp z lag).length = (targetTrunc inp).length := by
  simp [windowAt, alignIdxTrunc, targetTrunc]


/-- Reduction of an `Option` bind on a `some`. -/
theorem optBind_some {α β : Type} (a : α) (f : α → Option β) :
    (do let x ← some a; f x) = f a := rfl


/-- C5: in `ephystrialstart`, every trial whose start time (first element
of its time vector) is strictly before the first sync block's time or
strictly after the last sync block's time gets a NaN entry (`some none`),
never an extrapolated index, and the remaining trials are still processed
(the result has one entry per trial). -/
theorem c5_out_of_coverage_null (fsE : ℚ) (tt : List (List ℚ)) (ss : List ℤ)
    (st : List ℚ) (res : List (Option ℤ))
    (h : ephystrialstart fsE tt ss st = some res)
    (i : ℕ) (trial : List ℚ) (t0 t1 tl : ℚ)
    (hi : tt[i]? = some trial) (ht0 : trial.head? = some t0)
    (h1 : st.head? = some t1) (hl : st.getLast? = some tl)
    (hout : t0 < t1 ∨ t0 > tl) :
    res[i]? = some none ∧ res.length = tt.length := by
  rw [ephystrialstart] at h
  cases hst : seqMap List.head? tt with
  | none => rw [hst] at h; simp at h
  | some starts =>
    rw [hst, optBind_some] at h
    cases hres : seqMap (trialStartIdx fsE ss st) starts with
    | none => rw [hres] at h; simp at h
    | some res0 =>
      rw [hres, optBind_some] at h
      have hmap : res = res0.map (Option.map fun i : ℤ => i - pyRound (1/10 * fsE)) := by
        simpa using h.symm
      obtain ⟨b, hb, hsi⟩ := seqMap_getElem? hst hi
      rw [ht0] at hb
      obtain rfl : t0 = b := Option.some.inj hb
      obtain ⟨c, hc, hri⟩ := seqMap_getElem? hres hsi
      rw [trialStartIdx, h1, optBind_some, hl, optBind_some] at hc
      rw [if_pos hout] at hc
      obtain rfl : c = none := by simpa using hc.symm
      subst hmap
      refine ⟨?_, ?_⟩
      · rw [List.getElem?_map, hri]
        rfl
      · rw [List.length_map, seqMap_length hres, seqMap_length hst]


/-- C6 (amended): a within-coverage trial's returned index is the first
candidate `i0` of the window `[floor(start_bins[nearest]),
1 + ceil(start_bins[-2]))` — midpoint bins over block start samples, not
the anchor block's own start to the next block's start — whose implied
time `round(time[nb] + (i0 - start[nb])/fs, 6)` reaches the trial start
time, with `round(0.1*fs_ephys)` samples subtracted. -/
theorem c6_code_window_characterization (fsE : ℚ) (tt : List (List ℚ)) (ss : List ℤ)
    (st : List ℚ) (res : List (Option ℤ))
    (h : ephystrialstart fsE tt ss st = some res)
    (i : ℕ) (trial : List ℚ) (t0 t1 tl : ℚ) (r : ℤ)
    (hi : tt[i]? = some trial) (ht0 : trial.head? = some t0)
    (h1 : st.head? = some t1) (hl : st.getLast? = some tl)
    (hin : ¬(t0 < t1 ∨ t0 > tl))
    (hr : res[i]? = some (some r)) :
    ∃ i0 : ℤ, r = i0 - pyRound (1/10 * fsE) ∧
      windowLo ss (nearestBlock st t0) ≤ i0 ∧ i0 < windowHi ss ∧
      t0 ≤ samp2time fsE ss st (nearestBlock st t0) i0 ∧
      ∀ j : ℤ, windowLo ss (nearestBlock st t0) ≤ j → j < i0 →
        samp2time fsE ss st (nearestBlock st t0) j < t0 := by
  rw [ephystrialstart] at h
  cases hst : seqMap List.head? tt with
  | none => rw [hst] at h; simp at h
  | some starts =>
    rw [hst, optBind_some] at h
    cases hres : seqMap (trialStartIdx fsE ss st) starts with
    | none => rw [hres] at h; simp at h
    | some res0 =>
      rw [hres, optBind_some] at h
      have hmap : res = res0.map (Option.map fun i : ℤ => i - pyRound (1/10 * fsE)) := by
        simpa using h.symm
      obtain ⟨b, hb, hsi⟩ := seqMap_getElem? hst hi
      rw [ht0] at hb
      obtain rfl : t0 = b := Option.some.inj hb
      obtain ⟨c, hc, hri⟩ := seqMap_getElem? hres hsi
      rw [trialStartIdx, h1, optBind_some, hl, optBind_some] at hc
      rw [if_neg hin] at hc
      subst hmap
      rw [List.getElem?_map, hri] at hr
      have hcr : Option.map (fun i : ℤ => i - pyRound (1/10 * fsE)) c = some r :=
        Option.some.inj hr
      cases hfind : (intRange (windowLo ss (nearestBlock st t0))
          (windowHi ss - windowLo ss (nearestBlock st t0)).toNat).find? (fun i : ℤ =>
            decide (samp2time fsE ss st (nearestBlock st t0) i ≥ t0)) with
      | none => rw [hfind] at hc; simp at hc
      | some i0 =>
        rw [hfind, optBind_some] at hc
        obtain rfl : c = some i0 := by simpa using hc.symm
        obtain ⟨hp, hlo, hhi, hpre⟩ := intRange_find?_eq_some hfind
        refine ⟨i0, ?_, hlo, ?_, ?_, ?_⟩
        · simpa using hcr.symm
        · omega
        · simpa using of_decide_eq_true hp
        · intro j hj1 hj2
          have := hpre j hj1 hj2
          simpa using of_decide_eq_false this


/-- The `j`-th nmse score is the score of the `j`-th candidate lag. -/
theorem scores_getD (inp : MakeIn) (z : ℕ) (j : ℕ) (hj : j < (lagsList inp).length) :
    (scores inp z).getD j ⊥ = score inp z ((lagsList inp).getD j 0) := by
  have hj2 : j < (scores inp z).length := by
    rw [scores, List.length_map]
    exact hj
  rw [List.getD_eq_getElem _ _ hj2, List.getD_eq_getElem _ _ hj]
  simp [scores]


/-- C9 (amended): both alignment arrays produced by the kernel of
`TrialAlignment.make` are monotone — behavior indices strictly increasing,
ephys indices non-decreasing. No bounds check against the recording length
exists anywhere in `make` (see the counterexample). -/
theorem c9_alignment_monotone (inp : MakeIn) (out : MakeOut)
    (h : makeKernel inp = some out) (hfs : 0 < inp.fsEphys) :
    List.Chain' (· < ·) out.behaviorAlignment ∧
      List.Chain' (· ≤ ·) out.ephysAlignment := by
  rw [makeKernel] at h
  cases hz : zeroIdx inp with
  | none => rw [hz] at h; simp at h
  | some z =>
    rw [hz, optBind_some] at h
    by_cases hs : inp.isStatic
    · rw [if_pos hs] at h
      obtain rfl : _ = out := by simpa using h
      exact ⟨behaviorAlignment_chain inp inp.alignIdx z,
        ephysAlignment_chain inp inp.alignIdx z hfs⟩
    · rw [if_neg hs] at h
      by_cases h1 : maxLagSamp inp < 0
      · rw [if_pos h1] at h; simp at h
      · rw [if_neg h1] at h
        by_cases h2 : truncIdx inp = []
        · rw [if_pos h2] at h; simp at h
        · rw [if_neg h2] at h
          obtain rfl : _ = out := by simpa using h
          exact ⟨behaviorAlignment_chain inp (inp.alignIdx + selectedLag inp z) z,
            ephysAlignment_chain inp (inp.alignIdx + selectedLag inp z) z hfs⟩


/-- Reduction of an `Option` bind on a `none`. -/
theorem optBind_none {α β : Type} (f : α → Option β) :
    (do let x ← (none : Option α); f x) = (none : Option β) := rfl


/-- C8 (amended): the skip-lag-search branch is taken exactly for trials
whose condition is of the Static type: then the applied lag is 0, no nmse
score is computed, and the output does not depend on the measured force at
all. Zero variance of the target does not trigger this branch. -/
theorem c8_static_skips_lag_search (inp : MakeIn) (out : MakeOut)
    (hstat : inp.isStatic = true) (h : makeKernel inp = some out) :
    out.lag = 0 ∧ out.scores = [] ∧
      ∀ f2 : List ℚ, makeKernel { inp with force := f2 } = makeKernel inp := by
  have hupd : ∀ f2 : List ℚ, makeKernel { inp with force := f2 } = makeKernel inp := by
    intro f2
    rw [makeKernel, makeKernel]
    have hz : zeroIdx { inp with force := f2 } = zeroIdx inp := rfl
    rw [hz]
    cases zeroIdx inp with
    | none => rw [optBind_none, optBind_none]
    | some z =>
      rw [optBind_some, optBind_some]
      have hs : ({ inp with force := f2 } : MakeIn).isStatic = inp.isStatic := rfl
      rw [hs, hstat, if_pos rfl, if_pos rfl]
      rfl
  rw [makeKernel] at h
  cases hz : zeroIdx inp with
  | none => rw [hz] at h; simp at h
  | some z =>
    rw [hz, optBind_some, if_pos hstat] at h
    obtain rfl : _ = out := by simpa using h
    exact ⟨rfl, rfl, hupd⟩


/-- C10: a candidate lag receives an nmse score only when
`align_idx + lag + align_idx_trunc[-1] < len(force)`; all other
candidates keep `-inf`. Whenever at least one candidate is scored, the
selected lag satisfies the same bound, so the winning alignment window
never reads past the end of the force array; the lag applied by
`makeKernel` for dynamic trials is that selected lag. -/
theorem c10_selected_lag_scored (inp : MakeIn) (z : ℕ)
    (hex : ∃ lag ∈ lagsList inp, scoreGuard inp z lag = true) :
    inp.alignIdx + selectedLag inp z + lastTrunc inp z < (inp.force.length : ℤ) ∧
    ∀ out, makeKernel inp = some out → zeroIdx inp = some z →
      inp.isStatic = false →
      inp.alignIdx + out.lag + lastTrunc inp z < (inp.force.length : ℤ) := by
  obtain ⟨lag, hmem, hg⟩ := hex
  obtain ⟨j, hj, hjval⟩ := List.mem_iff_getElem.mp hmem
  have hslen : (scores inp z).length = (lagsList inp).length := by
    rw [scores, List.length_map]
  have hne : scores inp z ≠ [] := by
    rw [← List.length_pos_iff_ne_nil, hslen]
    omega
  have ha := argmaxFirst_lt_length hne
  have hmax := le_argmaxFirst (scores inp z) j (by omega)
  have hjD : (lagsList inp).getD j 0 = lag := by
    rw [List.getD_eq_getElem _ _ hj, hjval]
  have hjscore : (scores inp z).getD j ⊥ = score inp z lag := by
    rw [scores_getD inp z j hj, hjD]
  have hbot : (⊥ : EReal) < (scores inp z).getD (argmaxFirst (scores inp z)) ⊥ := by
    apply lt_of_lt_of_le _ hmax
    rw [hjscore, score, if_pos hg]
    exact EReal.bot_lt_coe _
  have hsel : (scores inp z).getD (argmaxFirst (scores inp z)) ⊥ =
      score inp z (selectedLag inp z) := by
    rw [selectedLag]
    exact scores_getD inp z _ (by omega)
  have hmain : inp.alignIdx + selectedLag inp z + lastTrunc inp z <
      (inp.force.length : ℤ) := by
    cases hgs : scoreGuard inp z (selectedLag inp z) with
    | false =>
      rw [hsel, score, if_neg (by simp [hgs])] at hbot
      exact absurd hbot (lt_irrefl _)
    | true =>
      have := of_decide_eq_true hgs
      exact this
  refine ⟨hmain, ?_⟩
  intro out hk hz hstat
  rw [makeKernel, hz, optBind_some, if_neg (by simp [hstat])] at hk
  by_cases h1 : maxLagSamp inp < 0
  · rw [if_pos h1] at hk; simp at hk
  · rw [if_neg h1] at hk
    by_cases h2 : truncIdx inp = []
    · rw [if_pos h2] at hk; simp at hk
    · rw [if_neg h2] at hk
      obtain rfl : _ = out := by simpa using hk
      exact hmain


/-- C7 (amended): if the measured force window at lag `d` reproduces the
truncated target exactly, `|d| ≤ max_lag_samp`, the window at `d` is
scored, the target has positive variance, and no other candidate lag's
window reproduces the target, then the lag search selects exactly `d`,
and `makeKernel` applies it. -/
theorem c7_lag_recovery (inp : MakeIn) (z : ℕ) (d : ℤ)
    (hd1 : -maxLagSamp inp ≤ d) (hd2 : d ≤ maxLagSamp inp)
    (hvar : 0 < varQ (targetTrunc inp))
    (hguard : scoreGuard inp z d = true)
    (hmatch : windowAt inp z d = targetTrunc inp)
    (huniq : ∀ lag ∈ lagsList inp, lag ≠ d → windowAt inp z lag ≠ targetTrunc inp) :
    selectedLag inp z = d ∧
    ∀ out, makeKernel inp = some out → zeroIdx inp = some z →
      inp.isStatic = false → out.lag = d := by
  have hm : (0 : ℤ) ≤ maxLagSamp inp := by omega
  have hlaglen : (lagsList inp).length = (1 + 2 * maxLagSamp inp).toNat := by
    rw [lagsList, intRange_length]
  have hklt : (d + maxLagSamp inp).toNat < (lagsList inp).length := by
    rw [hlaglen]; omega
  have hkval : (lagsList inp).getD (d + maxLagSamp inp).toNat 0 = d := by
    rw [lagsList, List.getD_eq_getElem?_getD,
      intRange_getElem? _ _ _ (by rw [lagsList, intRange_length] at hklt; exact hklt)]
    simp
    omega
  have hslen : (scores inp z).length = (lagsList inp).length := by
    rw [scores, List.length_map]
  have hvk : (scores inp z).getD (d + maxLagSamp inp).toNat ⊥ = ((1 : ℝ) : EReal) := by
    rw [scores_getD inp z _ hklt, hkval, score, if_pos hguard, nmseArg, hmatch,
      mseQ_self, zero_div]
    norm_num
  have hothers : ∀ j, j < (scores inp z).length → j ≠ (d + maxLagSamp inp).toNat →
      (scores inp z).getD j ⊥ < (scores inp z).getD (d + maxLagSamp inp).toNat ⊥ := by
    intro j hj hjk
    rw [hvk]
    have hj2 : j < (lagsList inp).length := by omega
    have hjval : (lagsList inp).getD j 0 = -(maxLagSamp inp) + j := by
      rw [lagsList, List.getD_eq_getElem?_getD,
        intRange_getElem? _ _ _ (by rw [hlaglen] at hj2; exact hj2)]
      rfl
    have hlagne : -(maxLagSamp inp) + (j : ℤ) ≠ d := by omega
    have hmem : -(maxLagSamp inp) + (j : ℤ) ∈ lagsList inp := by
      rw [lagsList, mem_intRange]
      rw [hlaglen] at hj2
      omega
    rw [scores_getD inp z j hj2, hjval]
    cases hg : scoreGuard inp z (-(maxLagSamp inp) + (j : ℤ)) with
    | false =>
      rw [score, if_neg (by simp [hg])]
      exact EReal.bot_lt_coe 1
    | true =>
      rw [score, if_pos hg]
      have hwne := huniq _ hmem hlagne
      have hmse : 0 < mseQ (windowAt inp z (-(maxLagSamp inp) + (j : ℤ))) (targetTrunc inp) :=
        mseQ_pos (windowAt_length inp z _) hwne
      have harg : 0 < nmseArg inp z (-(maxLagSamp inp) + (j : ℤ)) := by
        rw [nmseArg]
        exact div_pos hmse hvar
      have hsq : 0 < Real.sqrt ((nmseArg inp z (-(maxLagSamp inp) + (j : ℤ)) : ℚ) : ℝ) := by
        apply Real.sqrt_pos.mpr
        exact_mod_cast harg
      rw [EReal.coe_lt_coe_iff]
      linarith
  have hargmax : argmaxFirst (scores inp z) = (d + maxLagSamp inp).toNat :=
    argmaxFirst_eq_of_unique _ _ (by omega) hothers
  have hsel : selectedLag inp z = d := by
    rw [selectedLag, hargmax, hkval]
  refine ⟨hsel, ?_⟩
  intro out hk hz hstat
  rw [makeKernel, hz, optBind_some, if_neg (by simp [hstat]), if_neg (by omega)] at hk
  have htne : ¬(truncIdx inp = []) := by
    intro htr
    have hte : targetTrunc inp = [] := by rw [targetTrunc, htr]; rfl
    rw [hte] at hvar
    simp [varQ, meanQ, sumQ] at hvar
  rw [if_neg htne] at hk
  obtain rfl : _ = out := by simpa using hk
  exact hsel

section ConcreteAlignment

attribute [local semireducible] Rat.add Rat.sub Rat.mul Rat.inv Rat.ofScientific

set_option maxRecDepth 8000


/-- Witness for C5 at a concrete input: trial start 0.05 s lies before the
first block time 1 s, its entry is NaN, and both trials produce entries. -/
theorem c5_out_of_coverage_witness :
    ephystrialstart 1000 [[1/20], [3/2]] [1000, 2000] [1, 2] = some [none, some 1400] ∧
    ([none, some 1400] : List (Option ℤ))[0]? = some none ∧
    ([none, some 1400] : List (Option ℤ)).length = [[(1:ℚ)/20], [3/2]].length := by
  have h : ephystrialstart 1000 [[1/20], [3/2]] [1000, 2000] [1, 2] =
      some [none, some 1400] := by decide
  refine ⟨h, ?_, ?_⟩
  · exact (c5_out_of_coverage_null 1000 [[1/20], [3/2]] [1000, 2000] [1, 2]
      [none, some 1400] h 0 [1/20] (1/20) 1 2 (by decide) (by decide) (by decide)
      (by decide) (Or.inl (by norm_num))).1
  · exact (c5_out_of_coverage_null 1000 [[1/20], [3/2]] [1000, 2000] [1, 2]
      [none, some 1400] h 0 [1/20] (1/20) 1 2 (by decide) (by decide) (by decide)
      (by decide) (Or.inl (by norm_num))).2


/-- C6 counterexample: for blocks at times 1,2,3 s with starts
1000,2000,3000 and trial start 1.9 s, the code searches from the midpoint
bin edge 1500 and returns 1900 - 100 = 1800, while the claim's window
(anchor start 2000 to next start) would return 2000 - 100 = 1900. -/
theorem c6_window_counterexample :
    ephystrialstart 1000 [[19/10]] [1000, 2000, 3000] [1, 2, 3] = some [some 1800] ∧
    claimC6TrialStart 1000 [1000, 2000, 3000] [1, 2, 3] (19/10) = some 1900 ∧
    some (1800 : ℤ) ≠ some (1900 : ℤ) :=
  ⟨by decide, by decide, by decide⟩


/-- Witness for the amended C6 at the same concrete input. -/
theorem c6_window_witness :
    ephystrialstart 1000 [[19/10]] [1000, 2000, 3000] [1, 2, 3] = some [some 1800] ∧
    (∃ i0 : ℤ, (1800 : ℤ) = i0 - pyRound (1/10 * 1000) ∧
      windowLo [1000, 2000, 3000] (nearestBlock [1, 2, 3] (19/10)) ≤ i0 ∧
      i0 < windowHi [1000, 2000, 3000] ∧
      (19/10 : ℚ) ≤ samp2time 1000 [1000, 2000, 3000] [1, 2, 3]
        (nearestBlock [1, 2, 3] (19/10)) i0 ∧
      ∀ j : ℤ, windowLo [1000, 2000, 3000] (nearestBlock [1, 2, 3] (19/10)) ≤ j →
        j < i0 → samp2time 1000 [1000, 2000, 3000] [1, 2, 3]
          (nearestBlock [1, 2, 3] (19/10)) j < 19/10) := by
  have h : ephystrialstart 1000 [[19/10]] [1000, 2000, 3000] [1, 2, 3] =
      some [some 1800] := by decide
  refine ⟨h, ?_⟩
  exact c6_code_window_characterization 1000 [[19/10]] [1000, 2000, 3000] [1, 2, 3]
    [some 1800] h 0 [19/10] (19/10) 1 3 1800 (by decide) (by decide) (by decide)
    (by decide) (by decide) (by decide)

end ConcreteAlignment

section ConcretePacman

attribute [local semireducible] Rat.add Rat.sub Rat.mul Rat.inv Rat.ofScientific

set_option maxRecDepth 8000


/-- C7 counterexample: with a zero-variance (hence periodic) target, the
measured force equals the target shifted by `d = 1` with
`|d| ≤ max_lag_samp = 1`, yet every candidate lag scores the same value,
`np.argmax` takes the first index, and the selected lag is `-1 ≠ 1`: the
claim as stated fails without a uniqueness assumption on the matching
lag. -/
theorem c7_ambiguous_shift_counterexample :
    zeroIdx ⟨[-1/10, 0, 1/10, 1/5], [9, 1/5, 1/5, 9], List.replicate 6 (1/5),
        2, 10, 10, 0, false, 1/10⟩ = some 1 ∧
    maxLagSamp ⟨[-1/10, 0, 1/10, 1/5], [9, 1/5, 1/5, 9], List.replicate 6 (1/5),
        2, 10, 10, 0, false, 1/10⟩ = 1 ∧
    windowAt ⟨[-1/10, 0, 1/10, 1/5], [9, 1/5, 1/5, 9], List.replicate 6 (1/5),
        2, 10, 10, 0, false, 1/10⟩ 1 1 =
      targetTrunc ⟨[-1/10, 0, 1/10, 1/5], [9, 1/5, 1/5, 9], List.replicate 6 (1/5),
        2, 10, 10, 0, false, 1/10⟩ ∧
    selectedLag ⟨[-1/10, 0, 1/10, 1/5], [9, 1/5, 1/5, 9], List.replicate 6 (1/5),
        2, 10, 10, 0, false, 1/10⟩ 1 = -1 ∧
    (-1 : ℤ) ≠ 1 := by
  refine ⟨by decide, by decide, by decide, ?_, by decide⟩
  have hone : ∀ lag : ℤ,
      scoreGuard ⟨[-1/10, 0, 1/10, 1/5], [9, 1/5, 1/5, 9], List.replicate 6 (1/5),
        2, 10, 10, 0, false, 1/10⟩ 1 lag = true →
      nmseArg ⟨[-1/10, 0, 1/10, 1/5], [9, 1/5, 1/5, 9], List.replicate 6 (1/5),
        2, 10, 10, 0, false, 1/10⟩ 1 lag = 0 →
      score ⟨[-1/10, 0, 1/10, 1/5], [9, 1/5, 1/5, 9], List.replicate 6 (1/5),
        2, 10, 10, 0, false, 1/10⟩ 1 lag = ((1 : ℝ) : EReal) := by
    intro lag hg h0
    rw [score, if_pos hg, h0]
    norm_num
  have hlags : lagsList ⟨[-1/10, 0, 1/10, 1/5], [9, 1/5, 1/5, 9],
      List.replicate 6 (1/5), 2, 10, 10, 0, false, 1/10⟩ = [-1, 0, 1] := by decide
  have hs : scores ⟨[-1/10, 0, 1/10, 1/5], [9, 1/5, 1/5, 9], List.replicate 6 (1/5),
      2, 10, 10, 0, false, 1/10⟩ 1 = [((1 : ℝ) : EReal), ((1 : ℝ) : EReal), ((1 : ℝ) : EReal)] := by
    rw [scores, hlags]
    simp only [List.map]
    rw [hone (-1) (by decide) (by decide), hone 0 (by decide) (by decide),
      hone 1 (by decide) (by decide)]
  have h0 : argmaxFirst [((1 : ℝ) : EReal), ((1 : ℝ) : EReal), ((1 : ℝ) : EReal)] = 0 := by
    apply argmaxFirst_eq_zero_of_le
    intro j hj
    simp only [List.length_cons, List.length_nil] at hj
    interval_cases j <;> simp
  rw [selectedLag, hs, h0, hlags]
  rfl


/-- Witness for the amended C7 at a concrete input with a non-degenerate
target `[0, 1]` and true lag 0. -/
theorem c7_lag_recovery_witness :
    (0 < varQ (targetTrunc ⟨[-1/10, 0, 1/10, 1/5], [9, 0, 1, 9], [7, 7, 0, 1, 7, 7],
        2, 10, 10, 0, false, 1/10⟩) ∧
     scoreGuard ⟨[-1/10, 0, 1/10, 1/5], [9, 0, 1, 9], [7, 7, 0, 1, 7, 7],
        2, 10, 10, 0, false, 1/10⟩ 1 0 = true ∧
     windowAt ⟨[-1/10, 0, 1/10, 1/5], [9, 0, 1, 9], [7, 7, 0, 1, 7, 7],
        2, 10, 10, 0, false, 1/10⟩ 1 0 =
       targetTrunc ⟨[-1/10, 0, 1/10, 1/5], [9, 0, 1, 9], [7, 7, 0, 1, 7, 7],
        2, 10, 10, 0, false, 1/10⟩) ∧
    selectedLag ⟨[-1/10, 0, 1/10, 1/5], [9, 0, 1, 9], [7, 7, 0, 1, 7, 7],
        2, 10, 10, 0, false, 1/10⟩ 1 = 0 :=
  ⟨⟨by decide, by decide, by decide⟩,
    (c7_lag_recovery ⟨[-1/10, 0, 1/10, 1/5], [9, 0, 1, 9], [7, 7, 0, 1, 7, 7],
        2, 10, 10, 0, false, 1/10⟩ 1 0 (by decide) (by decide) (by decide) (by decide)
      (by decide) (by decide)).1⟩


/-- C8 counterexample: a Ramp condition with `target_amplitude = 0`
(admissible in the schema) has a zero-variance target, is not a Static
condition (`parseparams` maps type `RMP` to `Ramp`), and
`TrialAlignment.make` runs the lag search on it: the nmse array has one
entry per candidate lag instead of being skipped. -/
theorem c8_flat_nonstatic_counterexample :
    varQ (rampForce 10 (1/10) (1/5) 0 (1/10) 2 4) = 0 ∧
    (⟨targetforceTime 10 (1/10) (1/5) 4, rampForce 10 (1/10) (1/5) 0 (1/10) 2 4,
        List.replicate 8 (1/5), 2, 10, 10, 0, false, 1/10⟩ : MakeIn).isStatic = false ∧
    (makeKernel ⟨targetforceTime 10 (1/10) (1/5) 4, rampForce 10 (1/10) (1/5) 0 (1/10) 2 4,
        List.replicate 8 (1/5), 2, 10, 10, 0, false, 1/10⟩).map
      (fun o => o.scores.length) = some 3 :=
  ⟨by decide, rfl, by decide⟩


/-- Witness for the amended C8 at a concrete Static trial. -/
theorem c8_static_skips_witness :
    (⟨[-1/1000, 0, 1/1000], [], [], 0, 1000, 1000, 0, true, 0⟩ : MakeIn).isStatic = true ∧
    ∃ out, makeKernel ⟨[-1/1000, 0, 1/1000], [], [], 0, 1000, 1000, 0, true, 0⟩ = some out ∧
      out.lag = 0 ∧ out.scores = [] ∧
      ∀ f2 : List ℚ,
        makeKernel { (⟨[-1/1000, 0, 1/1000], [], [], 0, 1000, 1000, 0, true, 0⟩ : MakeIn)
            with force := f2 } =
          makeKernel ⟨[-1/1000, 0, 1/1000], [], [], 0, 1000, 1000, 0, true, 0⟩ := by
  have hsome : (makeKernel (⟨[-1/1000, 0, 1/1000], [], [], 0, 1000, 1000, 0, true, 0⟩ :
      MakeIn)).isSome = true := by decide
  obtain ⟨out, hout⟩ := Option.isSome_iff_exists.mp hsome
  have h := c8_static_skips_lag_search _ out rfl hout
  exact ⟨rfl, out, hout, h.1, h.2.1, h.2.2⟩


/-- C9 counterexample: a trial whose time vector starts before zero
produces behavior index `-1` and ephys index `-2`, out of range for every
recording, and `make` returns them normally instead of raising. -/
theorem c9_no_bounds_check_counterexample :
    (makeKernel ⟨[-1/1000, 0, 1/1000], [], [], 0, 1000, 1000, 0, true, 0⟩).map
      (fun o => (o.behaviorAlignment, o.ephysAlignment)) =
      some ([-1, 0, 1], [-2, -1, 0]) ∧
    ∀ total : ℕ, ¬((0 : ℤ) ≤ -1 ∧ (-1 : ℤ) < (total : ℤ)) := by
  refine ⟨by decide, ?_⟩
  intro total h
  omega


/-- Witness for the amended C9 at a concrete static trial. -/
theorem c9_alignment_monotone_witness :
    (0 : ℚ) < 1000 ∧
    ∃ out, makeKernel ⟨[-1/1000, 0, 1/1000], [], [], 0, 1000, 1000, 0, true, 0⟩ = some out ∧
      List.Chain' (· < ·) out.behaviorAlignment ∧
      List.Chain' (· ≤ ·) out.ephysAlignment := by
  have hsome : (makeKernel (⟨[-1/1000, 0, 1/1000], [], [], 0, 1000, 1000, 0, true, 0⟩ :
      MakeIn)).isSome = true := by decide
  obtain ⟨out, hout⟩ := Option.isSome_iff_exists.mp hsome
  have h := c9_alignment_monotone _ out hout (by norm_num)
  exact ⟨by norm_num, out, hout, h.1, h.2⟩


/-- Witness for C10 at a concrete dynamic trial where all three candidate
lags are scored. -/
theorem c10_selected_lag_witness :
    (∃ lag ∈ lagsList ⟨[-1/10, 0, 1/10, 1/5], [9, 0, 1, 9], [7, 7, 0, 1, 7, 7],
        2, 10, 10, 0, false, 1/10⟩,
      scoreGuard ⟨[-1/10, 0, 1/10, 1/5], [9, 0, 1, 9], [7, 7, 0, 1, 7, 7],
        2, 10, 10, 0, false, 1/10⟩ 1 lag = true) ∧
    (⟨[-1/10, 0, 1/10, 1/5], [9, 0, 1, 9], [7, 7, 0, 1, 7, 7],
        2, 10, 10, 0, false, 1/10⟩ : MakeIn).alignIdx +
      selectedLag ⟨[-1/10, 0, 1/10, 1/5], [9, 0, 1, 9], [7, 7, 0, 1, 7, 7],
        2, 10, 10, 0, false, 1/10⟩ 1 +
      lastTrunc ⟨[-1/10, 0, 1/10, 1/5], [9, 0, 1, 9], [7, 7, 0, 1, 7, 7],
        2, 10, 10, 0, false, 1/10⟩ 1 <
      ((⟨[-1/10, 0, 1/10, 1/5], [9, 0, 1, 9], [7, 7, 0, 1, 7, 7],
        2, 10, 10, 0, false, 1/10⟩ : MakeIn).force.length : ℤ) := by
  have hex : ∃ lag ∈ lagsList ⟨[-1/10, 0, 1/10, 1/5], [9, 0, 1, 9], [7, 7, 0, 1, 7, 7],
      2, 10, 10, 0, false, 1/10⟩,
      scoreGuard ⟨[-1/10, 0, 1/10, 1/5], [9, 0, 1, 9], [7, 7, 0, 1, 7, 7],
        2, 10, 10, 0, false, 1/10⟩ 1 lag = true := ⟨0, by decide, by decide⟩
  exact ⟨hex, (c10_selected_lag_scored _ 1 hex).1⟩

end ConcretePacman
